import Mathlib

/-!
Shallow embedding of the graph-bridge repository (src/graph.rs, src/gui.rs,
src/main.rs). Rust `usize` indices are modelled as `Nat`; `Vec` as `List`;
`HashSet` as `Finset Nat`; `f32` random samples as `ℚ`; a panicking index
lookup as `Option`; the external windowing run result as `Except String Unit`.
-/

namespace GraphBridge

/-- Rust `Vec::resize(n, d)`: truncate to `n` or pad with `d` up to length `n`. -/
def listResize (l : List α) (n : Nat) (d : α) : List α :=
  l.take n ++ List.replicate (n - l.length) d

/-- `MatrixGraph` from src/graph.rs (mod matrix): a square boolean matrix. -/
structure MatrixGraph where
  mtx : List (List Bool)
deriving DecidableEq, Repr

/-- `MatrixGraph::with_dots_count(count)`: an all-false count-by-count matrix. -/
def MatrixGraph.with_dots_count (count : Nat) : MatrixGraph :=
  ⟨List.replicate count (List.replicate count false)⟩

/-- `MatrixGraph::dot_count`: the number of rows. -/
def MatrixGraph.dot_count (g : MatrixGraph) : Nat := g.mtx.length

/-- Cell read `mtx[i][j]` (in-bounds on all states the program builds). -/
def cell (m : List (List Bool)) (i j : Nat) : Bool :=
  (m.getD i []).getD j false

/-- The growth step of `MatrixGraph::add_edge`: `resize_with(k, || vec![false; k])`
followed by `line.resize(k, false)` on every row. -/
def growTo (m : List (List Bool)) (k : Nat) : List (List Bool) :=
  (listResize m k (List.replicate k false)).map (fun line => listResize line k false)

/-- `MatrixGraph::add_edge(from, to)`: grow the matrix when `max from to` is out
of bounds, then set cell (from, to) to true. -/
def MatrixGraph.add_edge (g : MatrixGraph) (fr t : Nat) : MatrixGraph :=
  let min_req := max fr t
  let m := if min_req ≥ g.mtx.length then growTo g.mtx (min_req + 1) else g.mtx
  ⟨m.set fr ((m.getD fr []).set t true)⟩

/-- The pairs `(from, to)` visited by `MatrixGraph::for_each_edge` before the
filter: `from` in `0..len`, `to` in `from..len`. -/
def edgePairs (n : Nat) : List (Nat × Nat) :=
  (List.range n).flatMap (fun fr => (List.range' fr (n - fr)).map (fun t => (fr, t)))

/-- `MatrixGraph::for_each_edge`, returning the list of visited edges in call
order: the upper-triangle pairs whose cell is true. -/
def MatrixGraph.for_each_edge (g : MatrixGraph) : List (Nat × Nat) :=
  (edgePairs g.mtx.length).filter (fun p => cell g.mtx p.1 p.2)

/-- Fold a sequence of `add_edge` calls over `MatrixGraph::with_dots_count n`. -/
def buildMatrix (n : Nat) (es : List (Nat × Nat)) : MatrixGraph :=
  es.foldl (fun g p => g.add_edge p.1 p.2) (MatrixGraph.with_dots_count n)

/-- The matrix is square: every row is as long as the list of rows. -/
def Square (g : MatrixGraph) : Prop :=
  ∀ row ∈ g.mtx, row.length = g.mtx.length

instance (g : MatrixGraph) : Decidable (Square g) := by
  unfold Square; infer_instance

/-- `EdgeListGraph` from src/graph.rs (mod edge_list). -/
structure EdgeListGraph where
  dots : Finset Nat
  edges : List (Nat × Nat)
deriving DecidableEq

/-- `EdgeListGraph::with_dots_count(count)`: dots `0..count`, no edges. -/
def EdgeListGraph.with_dots_count (count : Nat) : EdgeListGraph :=
  ⟨Finset.range count, []⟩

/-- `EdgeListGraph::dot_count`: size of the dot set. -/
def EdgeListGraph.dot_count (g : EdgeListGraph) : Nat := g.dots.card

/-- `EdgeListGraph::for_each_edge`: the stored edges in insertion order. -/
def EdgeListGraph.for_each_edge (g : EdgeListGraph) : List (Nat × Nat) := g.edges

/-- `EdgeListGraph::add_edge(from, to)`: insert both endpoints into the dot
set and push the pair onto the edge list. -/
def EdgeListGraph.add_edge (g : EdgeListGraph) (fr t : Nat) : EdgeListGraph :=
  ⟨insert t (insert fr g.dots), g.edges ++ [(fr, t)]⟩

/-- Fold a sequence of `add_edge` calls over `EdgeListGraph::with_dots_count n`. -/
def buildEdgeList (n : Nat) (es : List (Nat × Nat)) : EdgeListGraph :=
  es.foldl (fun g p => g.add_edge p.1 p.2) (EdgeListGraph.with_dots_count n)

/-- The matrix after the conditional growth step of `add_edge` (proof helper,
definitionally the intermediate state of `MatrixGraph::add_edge`). -/
def grown (g : MatrixGraph) (fr t : Nat) : List (List Bool) :=
  if max fr t ≥ g.mtx.length then growTo g.mtx (max fr t + 1) else g.mtx

/-- Strict lexicographic order on index pairs, the visit order of
`MatrixGraph::for_each_edge`. -/
def pairLexLt (p q : Nat × Nat) : Prop :=
  p.1 < q.1 ∨ (p.1 = q.1 ∧ p.2 < q.2)

/-- `Coord` from src/gui.rs; the two f32 components are modelled as rationals. -/
structure Coord where
  x : ℚ
  y : ℚ
deriving DecidableEq, Repr

/-- `GraphicsHolder` from src/gui.rs: the Geometry Snapshot of dots and lines. -/
structure GraphicsHolder where
  dots : List Coord
  lines : List (Coord × Coord)
deriving DecidableEq, Repr

/-- `DrawingApi::draw_dot` at its i-th call: draws x then y from the random
sample stream (samples 2i and 2i+1), pushes and returns the Coord. -/
def draw_dot (rand : Nat → ℚ) (i : Nat) : Coord :=
  ⟨rand (2 * i), rand (2 * i + 1)⟩

/-- The edge loop of `DrawableGraph::draw`: for each enumerated edge, look up
both endpoint coordinates — `none` models an out-of-range index panic in
`dot_coords[from]` / `dot_coords[to]` — and push the pair via `draw_edge`. -/
def drawLines (dot_coords : List Coord) : List (Nat × Nat) → Option (List (Coord × Coord))
  | [] => some []
  | p :: rest => do
    let cf ← dot_coords[p.1]?
    let ct ← dot_coords[p.2]?
    let ls ← drawLines dot_coords rest
    pure ((cf, ct) :: ls)

/-- `DrawableGraph::draw` up to the backend hand-off: generate `dot_count`
coordinates in vertex order 0..n, then collect one line per enumerated edge. -/
def drawCore (n : Nat) (edges : List (Nat × Nat)) (rand : Nat → ℚ) :
    Option GraphicsHolder :=
  let dot_coords := (List.range n).map (draw_dot rand)
  (drawLines dot_coords edges).map (fun ls => ⟨dot_coords, ls⟩)

/-- `DrawableGraph::draw` specialised to `MatrixGraph`. -/
def MatrixGraph.draw (g : MatrixGraph) (rand : Nat → ℚ) : Option GraphicsHolder :=
  drawCore g.dot_count g.for_each_edge rand

/-- `DrawableGraph::draw` specialised to `EdgeListGraph`. -/
def EdgeListGraph.draw (g : EdgeListGraph) (rand : Nat → ℚ) : Option GraphicsHolder :=
  drawCore g.dot_count g.for_each_edge rand

/-- `DrawBackend` from src/gui.rs: the two render backend variants. -/
inductive DrawBackend where
  | Egui
  | Iced
deriving DecidableEq, Repr

/-- The stderr line produced by the error arm of `DrawingApi::draw_with`
(`eprintln!` in the `unwrap_or_else` closure of each variant). -/
def backendErrLine (b : DrawBackend) (err : String) : String :=
  match b with
  | .Egui => "Egui backend failed with " ++ err
  | .Iced => "Iced backend failed with " ++ err

/-- `DrawingApi::draw_with`: hand the holder to the chosen backend. The
windowing run itself (`eframe::run_native` / `iced::Application::run`) is an
external collaborator outside this repository, so its outcome is taken as the
`runResult` argument; the returned pair is (stderr lines printed, the unit
value the Rust function returns). -/
def draw_with (holder : GraphicsHolder) (b : DrawBackend)
    (runResult : Except String Unit) : List String × Unit :=
  match holder, runResult with
  | _, .ok _ => ([], ())
  | _, .error e => ([backendErrLine b e], ())

/-! ### List-level helper lemmas -/

theorem length_listResize (l : List α) (n : Nat) (d : α) :
    (listResize l n d).length = n := by
  simp only [listResize, List.length_append, List.length_take, List.length_replicate]
  omega

theorem getD_listResize (l : List α) {n : Nat} (d : α) (j : Nat) (h : l.length ≤ n) :
    (listResize l n d).getD j d = l.getD j d := by
  simp only [listResize, List.take_of_length_le h, List.getD_eq_getElem?_getD,
    List.getElem?_append, List.getElem?_replicate]
  by_cases hj : j < l.length
  · simp [hj]
  · rw [if_neg hj, List.getElem?_eq_none (by omega)]
    by_cases h2 : j - l.length < n - l.length <;> simp [h2]

theorem getD_set_self {l : List α} {i : Nat} (a d : α) (h : i < l.length) :
    (l.set i a).getD i d = a := by
  rw [List.getD_eq_getElem?_getD, List.getElem?_set_self h]
  rfl

theorem getD_set_ne {l : List α} {i j : Nat} (a d : α) (h : i ≠ j) :
    (l.set i a).getD j d = l.getD j d := by
  rw [List.getD_eq_getElem?_getD, List.getElem?_set_ne h, ← List.getD_eq_getElem?_getD]

theorem length_growTo (m : List (List Bool)) (k : Nat) : (growTo m k).length = k := by
  simp [growTo, length_listResize]

theorem mem_growTo_length {m : List (List Bool)} {k : Nat} {row : List Bool}
    (h : row ∈ growTo m k) : row.length = k := by
  simp only [growTo, List.mem_map] at h
  obtain ⟨r, _, rfl⟩ := h
  exact length_listResize ..

theorem cell_oob {m : List (List Bool)} {i : Nat} (j : Nat) (h : m.length ≤ i) :
    cell m i j = false := by
  simp [cell, List.getD_eq_getElem?_getD, List.getElem?_eq_none h]

theorem cell_row_oob {m : List (List Bool)} {i j : Nat}
    (h : (m.getD i []).length ≤ j) : cell m i j = false := by
  unfold cell
  rw [List.getD_eq_getElem?_getD (m.getD i []) j, List.getElem?_eq_none h]
  rfl

theorem cell_growTo {m : List (List Bool)} {k : Nat}
    (hsq : ∀ row ∈ m, row.length = m.length) (hk : m.length ≤ k) (i j : Nat) :
    cell (growTo m k) i j = cell m i j := by
  rcases Nat.lt_or_ge i m.length with hi | hi
  · have hrow : (listResize m k (List.replicate k false))[i]? = some m[i] := by
      simp only [listResize, List.take_of_length_le hk, List.getElem?_append, if_pos hi]
      exact List.getElem?_eq_getElem hi
    have hlen : m[i].length ≤ k := by
      rw [hsq _ (List.getElem_mem hi)]; exact hk
    simp only [cell, growTo, List.getD_eq_getElem?_getD, List.getElem?_map, hrow,
      Option.map_some', Option.getD_some, List.getElem?_eq_getElem hi]
    rw [← List.getD_eq_getElem?_getD, ← List.getD_eq_getElem?_getD,
      getD_listResize _ _ _ hlen]
  · rw [cell_oob j hi]
    rcases Nat.lt_or_ge i k with hik | hik
    · have hrow : (listResize m k (List.replicate k false))[i]? =
          some (List.replicate k false) := by
        simp only [listResize, List.take_of_length_le hk, List.getElem?_append,
          if_neg (by omega : ¬ i < m.length), List.getElem?_replicate,
          if_pos (by omega : i - m.length < k - m.length)]
      simp only [cell, growTo, List.getD_eq_getElem?_getD, List.getElem?_map, hrow,
        Option.map_some', Option.getD_some]
      rw [← List.getD_eq_getElem?_getD, getD_listResize _ _ _ (by simp),
        List.getD_eq_getElem?_getD, List.getElem?_replicate]
      by_cases hjk : j < k <;> simp [hjk]
    · have : (growTo m k).length ≤ i := by rw [length_growTo]; exact hik
      exact cell_oob j this

/-! ### Properties of the grown matrix and of add_edge -/

theorem add_edge_mtx (g : MatrixGraph) (fr t : Nat) :
    (g.add_edge fr t).mtx =
      (grown g fr t).set fr (((grown g fr t).getD fr []).set t true) := rfl

theorem length_grown (g : MatrixGraph) (fr t : Nat) :
    (grown g fr t).length = max g.mtx.length (max fr t + 1) := by
  unfold grown
  split_ifs with h
  · rw [length_growTo]; omega
  · omega

theorem square_grown {g : MatrixGraph} (hsq : Square g) (fr t : Nat) :
    ∀ row ∈ grown g fr t, row.length = (grown g fr t).length := by
  intro row hrow
  unfold grown at hrow ⊢
  split_ifs at hrow ⊢ with h
  · rw [mem_growTo_length hrow, length_growTo]
  · exact hsq row hrow

theorem cell_grown {g : MatrixGraph} (hsq : Square g) (fr t i j : Nat) :
    cell (grown g fr t) i j = cell g.mtx i j := by
  unfold grown
  split_ifs with h
  · exact cell_growTo hsq (by omega) i j
  · rfl

theorem fr_lt_length_grown (g : MatrixGraph) (fr t : Nat) :
    fr < (grown g fr t).length := by
  rw [length_grown]; omega

theorem t_lt_row_grown {g : MatrixGraph} (hsq : Square g) (fr t : Nat) :
    t < ((grown g fr t).getD fr []).length := by
  have hfr := fr_lt_length_grown g fr t
  have hmem : (grown g fr t).getD fr [] ∈ grown g fr t := by
    rw [List.getD_eq_getElem?_getD, List.getElem?_eq_getElem hfr]
    exact List.getElem_mem hfr
  rw [square_grown hsq fr t _ hmem, length_grown]
  omega

theorem dot_count_add_edge (g : MatrixGraph) (fr t : Nat) :
    (g.add_edge fr t).dot_count = max g.dot_count (max fr t + 1) := by
  show (g.add_edge fr t).mtx.length = max g.mtx.length (max fr t + 1)
  rw [add_edge_mtx, List.length_set, length_grown]

theorem square_add_edge {g : MatrixGraph} (hsq : Square g) (fr t : Nat) :
    Square (g.add_edge fr t) := by
  intro row hrow
  rw [add_edge_mtx] at hrow ⊢
  rw [List.length_set]
  rcases List.mem_or_eq_of_mem_set hrow with hmem | rfl
  · exact square_grown hsq fr t row hmem
  · rw [List.length_set]
    have hfr := fr_lt_length_grown g fr t
    have hmem : (grown g fr t).getD fr [] ∈ grown g fr t := by
      rw [List.getD_eq_getElem?_getD, List.getElem?_eq_getElem hfr]
      exact List.getElem_mem hfr
    exact square_grown hsq fr t _ hmem

theorem cell_set_ne_row {m : List (List Bool)} (a : List Bool) {fr i : Nat} (j : Nat)
    (h : fr ≠ i) : cell (m.set fr a) i j = cell m i j := by
  unfold cell
  rw [getD_set_ne _ _ h]

theorem cell_set_self_ne_col {m : List (List Bool)} {fr t j : Nat}
    (hfr : fr < m.length) (h : t ≠ j) :
    cell (m.set fr ((m.getD fr []).set t true)) fr j = cell m fr j := by
  unfold cell
  rw [getD_set_self _ _ hfr, getD_set_ne _ _ h]

theorem cell_set_self {m : List (List Bool)} {fr t : Nat}
    (hfr : fr < m.length) (ht : t < (m.getD fr []).length) :
    cell (m.set fr ((m.getD fr []).set t true)) fr t = true := by
  unfold cell
  rw [getD_set_self _ _ hfr, getD_set_self _ _ ht]

theorem cell_add_edge {g : MatrixGraph} (hsq : Square g) (fr t i j : Nat) :
    cell (g.add_edge fr t).mtx i j = true ↔ (i = fr ∧ j = t) ∨ cell g.mtx i j = true := by
  rw [add_edge_mtx]
  by_cases hif : fr = i
  · subst hif
    by_cases hjt : t = j
    · subst hjt
      rw [cell_set_self (fr_lt_length_grown g fr t) (t_lt_row_grown hsq fr t)]
      simp
    · rw [cell_set_self_ne_col (fr_lt_length_grown g fr t) hjt, cell_grown hsq]
      simp [show ¬ (j = t) from fun h => hjt h.symm]
  · rw [cell_set_ne_row _ j hif, cell_grown hsq]
    simp [show ¬ (i = fr) from fun h => hif h.symm]

theorem square_with_dots_count (n : Nat) : Square (MatrixGraph.with_dots_count n) := by
  intro row hrow
  rw [List.eq_of_mem_replicate hrow]
  simp [MatrixGraph.with_dots_count]

theorem cell_with_dots_count (n i j : Nat) :
    cell (MatrixGraph.with_dots_count n).mtx i j = false := by
  simp only [cell, MatrixGraph.with_dots_count, List.getD_eq_getElem?_getD,
    List.getElem?_replicate]
  by_cases hi : i < n <;> by_cases hj : j < n <;>
    simp [hi, hj, List.getElem?_replicate]

/-! ### Folding a sequence of add_edge calls -/

theorem square_foldl (es : List (Nat × Nat)) (g : MatrixGraph) (hsq : Square g) :
    Square (es.foldl (fun g p => g.add_edge p.1 p.2) g) := by
  induction es generalizing g with
  | nil => exact hsq
  | cons p rest ih => exact ih _ (square_add_edge hsq p.1 p.2)

theorem cell_foldl (es : List (Nat × Nat)) (g : MatrixGraph) (hsq : Square g)
    (i j : Nat) :
    cell (es.foldl (fun g p => g.add_edge p.1 p.2) g).mtx i j = true ↔
      (i, j) ∈ es ∨ cell g.mtx i j = true := by
  induction es generalizing g with
  | nil => simp
  | cons p rest ih =>
    rw [List.foldl_cons, ih _ (square_add_edge hsq p.1 p.2),
      cell_add_edge hsq p.1 p.2 i j, List.mem_cons, Prod.ext_iff]
    tauto

theorem dot_count_foldl (es : List (Nat × Nat)) (g : MatrixGraph) :
    (es.foldl (fun g p => g.add_edge p.1 p.2) g).dot_count =
      es.foldl (fun d p => max d (max p.1 p.2 + 1)) g.dot_count := by
  induction es generalizing g with
  | nil => rfl
  | cons p rest ih =>
    rw [List.foldl_cons, List.foldl_cons, ih, dot_count_add_edge]

theorem seed_le_foldl_max (f : α → Nat) (l : List α) (a : Nat) :
    a ≤ l.foldl (fun d x => max d (f x)) a := by
  induction l generalizing a with
  | nil => exact Nat.le_refl a
  | cons x rest ih =>
    exact Nat.le_trans (Nat.le_max_left a (f x)) (ih (max a (f x)))

theorem foldl_max_of_mem (f : α → Nat) {l : List α} {p : α} (hp : p ∈ l) (a : Nat) :
    f p ≤ l.foldl (fun d x => max d (f x)) a := by
  induction l generalizing a with
  | nil => exact absurd hp (List.not_mem_nil p)
  | cons x rest ih =>
    rcases List.mem_cons.mp hp with rfl | hmem
    · exact Nat.le_trans (Nat.le_max_right a (f p)) (seed_le_foldl_max f rest _)
    · exact ih hmem _

theorem mem_lt_dot_count_foldl {es : List (Nat × Nat)} {p : Nat × Nat} (hp : p ∈ es)
    (g : MatrixGraph) :
    p.1 < (es.foldl (fun g p => g.add_edge p.1 p.2) g).dot_count ∧
      p.2 < (es.foldl (fun g p => g.add_edge p.1 p.2) g).dot_count := by
  rw [dot_count_foldl]
  have := foldl_max_of_mem (fun p : Nat × Nat => max p.1 p.2 + 1) hp g.dot_count
  omega

/-! ### The enumeration order of for_each_edge -/

theorem mem_edgePairs {n i j : Nat} : (i, j) ∈ edgePairs n ↔ i ≤ j ∧ j < n := by
  simp only [edgePairs, List.mem_flatMap, List.mem_map, List.mem_range,
    List.mem_range'_1, Prod.mk.injEq]
  constructor
  · rintro ⟨fr, hfr, t, ⟨h1, h2⟩, rfl, rfl⟩
    omega
  · rintro ⟨hij, hjn⟩
    exact ⟨i, by omega, j, ⟨hij, by omega⟩, rfl, rfl⟩

theorem pairwise_edgePairs (n : Nat) : (edgePairs n).Pairwise pairLexLt := by
  unfold edgePairs
  rw [List.pairwise_flatMap]
  constructor
  · intro a _
    refine List.Pairwise.map _ (fun x y hxy => ?_) (List.pairwise_lt_range' a (n - a))
    exact Or.inr ⟨rfl, hxy⟩
  · refine List.Pairwise.imp ?_ (List.pairwise_lt_range n)
    intro a b hab x hx y hy
    simp only [List.mem_map] at hx hy
    obtain ⟨xt, _, rfl⟩ := hx
    obtain ⟨yt, _, rfl⟩ := hy
    exact Or.inl hab

theorem nodup_edgePairs (n : Nat) : (edgePairs n).Nodup := by
  refine (pairwise_edgePairs n).imp (fun h => ?_)
  rintro rfl
  rcases h with h | ⟨_, h⟩ <;> omega

theorem mem_for_each_edge {g : MatrixGraph} {i j : Nat} :
    (i, j) ∈ g.for_each_edge ↔ i ≤ j ∧ j < g.mtx.length ∧ cell g.mtx i j = true := by
  unfold MatrixGraph.for_each_edge
  rw [List.mem_filter, mem_edgePairs]
  tauto

theorem nodup_for_each_edge (g : MatrixGraph) : g.for_each_edge.Nodup :=
  (nodup_edgePairs g.mtx.length).filter _

theorem pairwise_for_each_edge (g : MatrixGraph) : g.for_each_edge.Pairwise pairLexLt :=
  (pairwise_edgePairs g.mtx.length).filter _

theorem cell_buildMatrix (n : Nat) (es : List (Nat × Nat)) (i j : Nat) :
    cell (buildMatrix n es).mtx i j = true ↔ (i, j) ∈ es := by
  unfold buildMatrix
  rw [cell_foldl es _ (square_with_dots_count n), cell_with_dots_count]
  simp

theorem square_buildMatrix (n : Nat) (es : List (Nat × Nat)) :
    Square (buildMatrix n es) :=
  square_foldl es _ (square_with_dots_count n)

theorem foldl_max_perm (f : α → Nat) {l₁ l₂ : List α} (hp : l₁.Perm l₂) :
    ∀ a : Nat, l₁.foldl (fun d x => max d (f x)) a = l₂.foldl (fun d x => max d (f x)) a := by
  induction hp with
  | nil => intro a; rfl
  | cons x _ ih => intro a; simp only [List.foldl_cons]; exact ih _
  | swap x y l =>
    intro a
    simp only [List.foldl_cons]
    rw [show max (max a (f y)) (f x) = max (max a (f x)) (f y) by omega]
  | trans _ _ ih₁ ih₂ => intro a; rw [ih₁ a, ih₂ a]

theorem dot_count_buildMatrix_perm {es es' : List (Nat × Nat)} (hp : es.Perm es')
    (n : Nat) : (buildMatrix n es).dot_count = (buildMatrix n es').dot_count := by
  unfold buildMatrix
  rw [dot_count_foldl, dot_count_foldl]
  exact foldl_max_perm (fun p : Nat × Nat => max p.1 p.2 + 1) hp _

theorem MatrixGraph.ext_mtx {g₁ g₂ : MatrixGraph} (h : g₁.mtx = g₂.mtx) : g₁ = g₂ := by
  cases g₁; cases g₂; cases h; rfl

theorem count_decEq (a : Nat × Nat) (l : List (Nat × Nat)) :
    List.count a l = @List.count (Nat × Nat) instBEqOfDecidableEq a l := by
  induction l with
  | nil => rfl
  | cons x xs ih =>
    rw [List.count_cons, @List.count_cons _ instBEqOfDecidableEq, ih]
    by_cases hxa : x = a <;>
      simp [hxa, instBEqOfDecidableEq, beq_eq_false_iff_ne]

/-! ### Claim theorems for the matrix variant -/

/-- C1: for the matrix variant, after any sequence of add_edge calls on a graph
built by with_dots_count, every added edge with from ≤ to is enumerated by
for_each_edge exactly once, every added edge with from > to is never
enumerated, and for_each_edge visits only cells of the upper triangle
(including the diagonal) that are true. -/
theorem matrix_triangle_enumeration (n : Nat) (es : List (Nat × Nat)) (fr t : Nat)
    (hmem : (fr, t) ∈ es) :
    (fr ≤ t → List.count (fr, t) ((buildMatrix n es).for_each_edge) = 1)
    ∧ (t < fr → (fr, t) ∉ (buildMatrix n es).for_each_edge)
    ∧ ∀ p ∈ (buildMatrix n es).for_each_edge,
        p.1 ≤ p.2 ∧ cell (buildMatrix n es).mtx p.1 p.2 = true := by
  refine ⟨?_, ?_, ?_⟩
  · intro hle
    have hb := mem_lt_dot_count_foldl hmem (MatrixGraph.with_dots_count n)
    have hmemE : (fr, t) ∈ (buildMatrix n es).for_each_edge := by
      rw [mem_for_each_edge]
      exact ⟨hle, hb.2, (cell_buildMatrix n es fr t).mpr hmem⟩
    rw [count_decEq]
    exact List.count_eq_one_of_mem (nodup_for_each_edge _) hmemE
  · intro hlt hmemE
    rw [mem_for_each_edge] at hmemE
    omega
  · rintro ⟨i, j⟩ hp
    rw [mem_for_each_edge] at hp
    exact ⟨hp.1, hp.2.2⟩

/-- Witness for C1 at a concrete build: (0,1) is enumerated once and the
lower-triangle edge (2,0) is not enumerated. -/
theorem matrix_triangle_enumeration_wit :
    List.count (0, 1) ((buildMatrix 3 [(0, 1), (2, 0)]).for_each_edge) = 1
    ∧ (2, 0) ∉ (buildMatrix 3 [(0, 1), (2, 0)]).for_each_edge := by
  have h1 := matrix_triangle_enumeration 3 [(0, 1), (2, 0)] 0 1 (by decide)
  have h2 := matrix_triangle_enumeration 3 [(0, 1), (2, 0)] 2 0 (by decide)
  exact ⟨h1.1 (by decide), h2.2.1 (by decide)⟩

/-- C2 (counterexample): in the program scenario — with_dots_count 10 on the
matrix variant, then add_edge (0,1), (1,2), (2,0), (0,4) — for_each_edge does
not yield (0,1),(1,2),(0,4) in that order. -/
theorem main_scenario_matrix_counterexample :
    (buildMatrix 10 [(0, 1), (1, 2), (2, 0), (0, 4)]).for_each_edge
      ≠ [(0, 1), (1, 2), (0, 4)] := by
  decide

/-- C2 (amended): in the program scenario, dot_count is 10 and for_each_edge
enumerates exactly (0,1),(0,4),(1,2) — in lexicographic, not insertion,
order — with (2,0) suppressed. -/
theorem main_scenario_matrix :
    (buildMatrix 10 [(0, 1), (1, 2), (2, 0), (0, 4)]).dot_count = 10
    ∧ (buildMatrix 10 [(0, 1), (1, 2), (2, 0), (0, 4)]).for_each_edge
        = [(0, 1), (0, 4), (1, 2)]
    ∧ (2, 0) ∉ (buildMatrix 10 [(0, 1), (1, 2), (2, 0), (0, 4)]).for_each_edge := by
  decide

/-- C5: on a square matrix graph, add_edge with max(from,to) at or past the
current dimension grows dot_count to max(from,to)+1, keeps the matrix square,
preserves every previously-true cell, and sets cell (from,to) true. -/
theorem matrix_add_edge_grows (g : MatrixGraph) (fr t : Nat) (hsq : Square g)
    (hbig : g.dot_count ≤ max fr t) :
    (g.add_edge fr t).dot_count = max fr t + 1
    ∧ Square (g.add_edge fr t)
    ∧ (∀ i j, cell g.mtx i j = true → cell (g.add_edge fr t).mtx i j = true)
    ∧ cell (g.add_edge fr t).mtx fr t = true := by
  refine ⟨?_, square_add_edge hsq fr t, ?_, ?_⟩
  · rw [dot_count_add_edge]; omega
  · intro i j hc
    exact (cell_add_edge hsq fr t i j).mpr (Or.inr hc)
  · exact (cell_add_edge hsq fr t fr t).mpr (Or.inl ⟨rfl, rfl⟩)

/-- Witness for C5: growing a 2-dimensional matrix with add_edge 1 3. -/
theorem matrix_add_edge_grows_wit :
    ((MatrixGraph.with_dots_count 2).add_edge 1 3).dot_count = 4
    ∧ cell ((MatrixGraph.with_dots_count 2).add_edge 1 3).mtx 1 3 = true := by
  have h := matrix_add_edge_grows (MatrixGraph.with_dots_count 2) 1 3
    (by decide) (by decide)
  exact ⟨h.1, h.2.2.2⟩

/-- C7: for the matrix variant, for_each_edge enumerates in strictly increasing
lexicographic order of (from,to), and the enumeration is independent of the
order in which the edges were added. -/
theorem matrix_enumeration_lex_order :
    (∀ g : MatrixGraph, g.for_each_edge.Pairwise pairLexLt)
    ∧ ∀ (n : Nat) (es es' : List (Nat × Nat)), es.Perm es' →
        (buildMatrix n es).for_each_edge = (buildMatrix n es').for_each_edge := by
  refine ⟨pairwise_for_each_edge, ?_⟩
  intro n es es' hp
  unfold MatrixGraph.for_each_edge
  have hlen : (buildMatrix n es).mtx.length = (buildMatrix n es').mtx.length :=
    dot_count_buildMatrix_perm hp n
  rw [hlen]
  refine List.filter_congr (fun p _ => ?_)
  rw [Bool.eq_iff_iff, cell_buildMatrix n es p.1 p.2, cell_buildMatrix n es' p.1 p.2]
  exact hp.mem_iff

/-- Witness for C7: swapping the insertion order of two edges leaves the
enumeration unchanged. -/
theorem matrix_enumeration_lex_order_wit :
    (buildMatrix 3 [(0, 1), (1, 2)]).for_each_edge
      = (buildMatrix 3 [(1, 2), (0, 1)]).for_each_edge :=
  matrix_enumeration_lex_order.2 3 _ _ (List.Perm.swap (1, 2) (0, 1) [])

/-- C8: for the matrix variant, add_edge is idempotent on every state — adding
the same edge twice yields exactly the state of adding it once — and every
for_each_edge enumeration lists any pair at most once. -/
theorem matrix_add_edge_idempotent :
    (∀ (g : MatrixGraph) (fr t : Nat),
      (g.add_edge fr t).add_edge fr t = g.add_edge fr t)
    ∧ ∀ (g : MatrixGraph) (p : Nat × Nat), List.count p g.for_each_edge ≤ 1 := by
  constructor
  · intro g fr t
    apply MatrixGraph.ext_mtx
    have hlen : max fr t < (g.add_edge fr t).mtx.length := by
      have h := dot_count_add_edge g fr t
      unfold MatrixGraph.dot_count at h
      omega
    have hgrown : grown (g.add_edge fr t) fr t = (g.add_edge fr t).mtx := by
      unfold grown
      rw [if_neg (by omega)]
    rw [add_edge_mtx (g.add_edge fr t) fr t, hgrown]
    rw [add_edge_mtx g fr t]
    rw [getD_set_self _ _ (fr_lt_length_grown g fr t), List.set_set, List.set_set]
  · intro g p
    rw [count_decEq]
    exact List.nodup_iff_count_le_one.mp (nodup_for_each_edge g) p

/-! ### Edge-list variant -/

theorem edges_foldl (es : List (Nat × Nat)) (g : EdgeListGraph) :
    (es.foldl (fun g p => g.add_edge p.1 p.2) g).edges = g.edges ++ es := by
  induction es generalizing g with
  | nil => simp
  | cons p rest ih =>
    rw [List.foldl_cons, ih]
    simp [EdgeListGraph.add_edge]

theorem dots_foldl (es : List (Nat × Nat)) (g : EdgeListGraph) (v : Nat) :
    v ∈ (es.foldl (fun g p => g.add_edge p.1 p.2) g).dots ↔
      v ∈ g.dots ∨ ∃ p ∈ es, p.1 = v ∨ p.2 = v := by
  induction es generalizing g with
  | nil => simp
  | cons p rest ih =>
    rw [List.foldl_cons, ih]
    simp only [EdgeListGraph.add_edge, Finset.mem_insert, List.mem_cons]
    aesop

/-- C4: the edge-list variant records endpoints into the dot set (idempotently
per vertex, any index accepted) and appends each pair; after any sequence of
add_edge calls, for_each_edge enumerates exactly the added pairs, in insertion
order and original orientation, duplicates and self-loops included, and the
dot set holds exactly the pre-sized indices and the touched endpoints. -/
theorem edge_list_add_and_enumerate :
    (∀ (g : EdgeListGraph) (fr t : Nat),
      (g.add_edge fr t).edges = g.edges ++ [(fr, t)]
      ∧ (g.add_edge fr t).dots = insert t (insert fr g.dots)
      ∧ ((g.add_edge fr t).add_edge fr t).dots = (g.add_edge fr t).dots)
    ∧ (∀ (n : Nat) (es : List (Nat × Nat)),
        (buildEdgeList n es).for_each_edge = es)
    ∧ ∀ (n : Nat) (es : List (Nat × Nat)) (v : Nat),
        v ∈ (buildEdgeList n es).dots ↔ v < n ∨ ∃ p ∈ es, p.1 = v ∨ p.2 = v := by
  refine ⟨fun g fr t => ⟨rfl, rfl, ?_⟩, fun n es => ?_, fun n es v => ?_⟩
  · show insert t (insert fr (insert t (insert fr g.dots)))
        = insert t (insert fr g.dots)
    ext v
    simp only [Finset.mem_insert]
    tauto
  · show (es.foldl (fun g p => g.add_edge p.1 p.2) (EdgeListGraph.with_dots_count n)).edges
        = es
    rw [edges_foldl]
    simp [EdgeListGraph.with_dots_count]
  · rw [buildEdgeList, dots_foldl]
    simp [EdgeListGraph.with_dots_count, Finset.mem_range]

/-! ### Drawing collector -/

theorem drawLines_length (coords : List Coord) :
    ∀ (edges : List (Nat × Nat)) (ls : List (Coord × Coord)),
      drawLines coords edges = some ls → ls.length = edges.length := by
  intro edges
  induction edges with
  | nil =>
    intro ls h
    have h' : some ([] : List (Coord × Coord)) = some ls := h
    injection h' with h'
    rw [← h']
    rfl
  | cons p rest ih =>
    intro ls h
    simp only [drawLines, Option.bind_eq_bind, Option.bind_eq_some, Option.pure_def,
      Option.some.injEq] at h
    obtain ⟨cf, -, ct, -, l', hl', rfl⟩ := h
    simp [ih l' hl']

theorem drawLines_total (coords : List Coord) (edges : List (Nat × Nat))
    (hb : ∀ p ∈ edges, p.1 < coords.length ∧ p.2 < coords.length) :
    ∃ ls, drawLines coords edges = some ls ∧ ls.length = edges.length
      ∧ ∀ (i : Nat) (p : Nat × Nat), edges[i]? = some p →
          ∃ cf ct, coords[p.1]? = some cf ∧ coords[p.2]? = some ct
            ∧ ls[i]? = some (cf, ct) := by
  induction edges with
  | nil =>
    exact ⟨[], rfl, rfl, fun i p h => by simp at h⟩
  | cons p rest ih =>
    obtain ⟨ls, hls, hlen, hidx⟩ := ih (fun q hq => hb q (List.mem_cons_of_mem p hq))
    have h1 : p.1 < coords.length := (hb p (List.mem_cons_self p rest)).1
    have h2 : p.2 < coords.length := (hb p (List.mem_cons_self p rest)).2
    obtain ⟨cf, hcf⟩ : ∃ cf, coords[p.1]? = some cf :=
      ⟨coords[p.1], List.getElem?_eq_getElem h1⟩
    obtain ⟨ct, hct⟩ : ∃ ct, coords[p.2]? = some ct :=
      ⟨coords[p.2], List.getElem?_eq_getElem h2⟩
    refine ⟨(cf, ct) :: ls, ?_, by simp [hlen], ?_⟩
    · simp only [drawLines, hcf, hct, hls, Option.bind_eq_bind, Option.bind_eq_some,
        Option.pure_def, Option.some.injEq]
      exact ⟨cf, rfl, ct, rfl, ls, rfl, rfl⟩
    · intro i q hq
      cases i with
      | zero =>
        rw [List.getElem?_cons_zero] at hq
        injection hq with hq
        subst hq
        exact ⟨cf, ct, hcf, hct, List.getElem?_cons_zero⟩
      | succ i =>
        rw [List.getElem?_cons_succ] at hq
        obtain ⟨cf', ct', hcf', hct', hl⟩ := hidx i q hq
        exact ⟨cf', ct', hcf', hct', by rw [List.getElem?_cons_succ]; exact hl⟩

theorem drawCore_some {n : Nat} {edges : List (Nat × Nat)} {rand : Nat → ℚ}
    {h : GraphicsHolder} (he : drawCore n edges rand = some h) :
    h.dots = (List.range n).map (draw_dot rand)
      ∧ drawLines h.dots edges = some h.lines := by
  simp only [drawCore] at he
  cases hdl : drawLines ((List.range n).map (draw_dot rand)) edges with
  | none => rw [hdl] at he; simp at he
  | some ls =>
    rw [hdl, Option.map_some'] at he
    injection he with he
    subst he
    exact ⟨rfl, hdl⟩

/-- C3: for every graph presented by its dot count n and its edge enumeration
(all endpoints below n), and every random stream with samples in [0,1), draw
succeeds and the Geometry Snapshot has exactly n Coordinates generated in
vertex order 0..n with both components in [0,1), and exactly one line segment
per enumerated edge, in order, whose endpoints are the Coordinates at the
indices of that edge. -/
theorem drawing_collector_snapshot (n : Nat) (edges : List (Nat × Nat))
    (rand : Nat → ℚ)
    (hb : ∀ p ∈ edges, p.1 < n ∧ p.2 < n)
    (hr : ∀ k, 0 ≤ rand k ∧ rand k < 1) :
    ∃ h : GraphicsHolder, drawCore n edges rand = some h
      ∧ h.dots = (List.range n).map (draw_dot rand)
      ∧ h.dots.length = n
      ∧ (∀ c ∈ h.dots, 0 ≤ c.x ∧ c.x < 1 ∧ 0 ≤ c.y ∧ c.y < 1)
      ∧ h.lines.length = edges.length
      ∧ ∀ (i : Nat) (p : Nat × Nat), edges[i]? = some p →
          ∃ cf ct, h.dots[p.1]? = some cf ∧ h.dots[p.2]? = some ct
            ∧ h.lines[i]? = some (cf, ct) := by
  have hlen : ((List.range n).map (draw_dot rand)).length = n := by simp
  obtain ⟨ls, hls, hlslen, hidx⟩ := drawLines_total ((List.range n).map (draw_dot rand))
    edges (fun p hp => by rw [hlen]; exact hb p hp)
  refine ⟨⟨(List.range n).map (draw_dot rand), ls⟩, ?_, rfl, hlen, ?_, hlslen, hidx⟩
  · simp only [drawCore]
    rw [hls]
    rfl
  · intro c hc
    simp only [List.mem_map, List.mem_range] at hc
    obtain ⟨i, -, rfl⟩ := hc
    exact ⟨(hr (2 * i)).1, (hr (2 * i)).2, (hr (2 * i + 1)).1, (hr (2 * i + 1)).2⟩

/-- Witness for C3 on a concrete graph and a constant random stream. -/
theorem drawing_collector_snapshot_wit :
    ∃ h : GraphicsHolder, drawCore 2 [(0, 1)] (fun _ => 0) = some h
      ∧ h.dots.length = 2 ∧ h.lines.length = 1 := by
  obtain ⟨h, hsome, -, hdlen, -, hllen, -⟩ :=
    drawing_collector_snapshot 2 [(0, 1)] (fun _ => 0) (by decide)
      (fun k => by norm_num)
  exact ⟨h, hsome, hdlen, hllen⟩

/-- C6: draw performs no bounds validation — whenever every enumerated edge has
both endpoints below dot count, every coordinate lookup succeeds and draw
returns a snapshot; and the edge-list graph built with with_dots_count 0 and
add_edge 5 5 enumerates an edge with endpoints at or past its dot count 1, on
which draw fails with an out-of-range lookup. -/
theorem draw_no_bounds_validation :
    (∀ (n : Nat) (edges : List (Nat × Nat)) (rand : Nat → ℚ),
      (∀ p ∈ edges, p.1 < n ∧ p.2 < n) → (drawCore n edges rand).isSome = true)
    ∧ ((buildEdgeList 0 [(5, 5)]).for_each_edge = [(5, 5)]
       ∧ (buildEdgeList 0 [(5, 5)]).dot_count = 1
       ∧ (buildEdgeList 0 [(5, 5)]).draw (fun _ => 0) = none) := by
  constructor
  · intro n edges rand hb
    have hlen : ((List.range n).map (draw_dot rand)).length = n := by simp
    obtain ⟨ls, hls, -, -⟩ := drawLines_total ((List.range n).map (draw_dot rand))
      edges (fun p hp => by rw [hlen]; exact hb p hp)
    simp only [drawCore]
    rw [hls]
    rfl
  · exact ⟨by decide, by decide, by decide⟩

/-- Witness for C6 (in-bounds half) at a concrete graph. -/
theorem draw_no_bounds_validation_wit :
    (drawCore 2 [(0, 1)] (fun _ => 0)).isSome = true :=
  draw_no_bounds_validation.1 2 [(0, 1)] (fun _ => 0) (by decide)

/-- C9: drawing the same graph twice, with any two random streams, produces
snapshots with the same number of Coordinates and the same number of line
segments. -/
theorem draw_counts_rand_invariant (n : Nat) (edges : List (Nat × Nat))
    (r₁ r₂ : Nat → ℚ) (h₁ h₂ : GraphicsHolder)
    (e₁ : drawCore n edges r₁ = some h₁) (e₂ : drawCore n edges r₂ = some h₂) :
    h₁.dots.length = h₂.dots.length ∧ h₁.lines.length = h₂.lines.length := by
  obtain ⟨hd₁, hl₁⟩ := drawCore_some e₁
  obtain ⟨hd₂, hl₂⟩ := drawCore_some e₂
  constructor
  · rw [hd₁, hd₂]
    simp
  · rw [drawLines_length _ _ _ hl₁, drawLines_length _ _ _ hl₂]

/-- Witness for C9 with two different constant random streams. -/
theorem draw_counts_rand_invariant_wit :
    (⟨[⟨0, 0⟩], []⟩ : GraphicsHolder).dots.length
        = (⟨[⟨1, 1⟩], []⟩ : GraphicsHolder).dots.length
    ∧ (⟨[⟨0, 0⟩], []⟩ : GraphicsHolder).lines.length
        = (⟨[⟨1, 1⟩], []⟩ : GraphicsHolder).lines.length :=
  draw_counts_rand_invariant 1 [] (fun _ => 0) (fun _ => 1) _ _ rfl rfl

/-- C10: if the windowing subsystem of the selected backend fails to
initialize, draw_with reports the error on standard error and returns the unit
value normally, for both backend variants; no error is propagated in the
return type. -/
theorem backend_failure_reported (holder : GraphicsHolder) (e : String) :
    (∀ b : DrawBackend, draw_with holder b (Except.error e)
        = ([backendErrLine b e], ()))
    ∧ ∀ (b : DrawBackend) (r : Except String Unit), (draw_with holder b r).2 = () :=
  ⟨fun b => rfl, fun b r => by cases r <;> rfl⟩

end GraphBridge
